import Mathlib

/-!
Verification of the "Curva ABC (Lince)" report parser of `src/app.py`.

The parser core is shallowly embedded: Python strings become `List Char`,
Python floats become `PyF` values (an exact rational, an infinity, or
NaN), and every fallible Python operation (`float(...)` in a `try`,
failed regex matches, per-line `continue`) becomes `Option`/a dropped
list element.  Modeling choices, stated once here and referenced below:

* Python floats are modeled by `PyF`: an exact rational (the type `Q`
  below, a reduced numerator/positive-denominator pair), `+inf`, `-inf`
  or NaN.  `pyFloat` models `float(str)` in full: optional sign, the
  case-insensitive keywords `nan`/`inf`/`infinity`, digits with single
  underscores between them and at most one period, an optional exponent,
  surrounding ASCII whitespace.  Every float comparison against NaN is
  `False` (`pyLe`) and adding NaN gives NaN (`pyAdd`); NaN is reachable,
  since the fallback branch hands an arbitrary token to `br_to_float`.
  The binary rounding of IEEE doubles is idealized away: decimal
  literals and their sums are exact.
* `sorted(..., key=..., reverse=True)` is modeled by a stable insertion
  sort along `valGE`.  On NaN-free keys this is exactly CPython's stable
  sort.  With a NaN key CPython's comparison-based order is
  arrangement-dependent, but the one fact proved about such an input —
  some adjacent pair violates the `>=` ordering — holds for every
  arrangement of the affected records, because a comparison against NaN
  fails from both sides.
* `\d`, `\s`, `str.lower`, `str.strip`, `str.split`, `str.splitlines`
  are modeled on their ASCII behaviour (plus `\r\n`/`\r` line ends);
  names in the report data are Latin-1, where only the accented
  *uppercase* letters (absent from all boilerplate keywords) would
  case-fold differently.
* The line regex of `parse_lince_lines_to_list` is modeled by a small
  backtracking matcher (`matchRE`) with Python's strategy: alternation
  prefers the left branch, greedy repetition prefers longer, lazy
  repetition prefers shorter, and a capture group records the consumed
  slice on the successful path.
-/

namespace AB4

/-- Python strings, as lists of unicode codepoints. -/
abbrev Str := List Char

/-- ASCII whitespace, the fragment of Python `\s` / `str.strip` relevant here:
space, tab, newline, carriage return, vertical tab, form feed. -/
def isPyWs (c : Char) : Bool :=
  c == ' ' || c == '\t' || c == '\n' || c == '\r' || c == Char.ofNat 11 || c == Char.ofNat 12

/-- ASCII case folding, modeling `str.lower` on the characters that occur in
the boilerplate keywords (which are ASCII except for already-lowercase accents). -/
def toLowerAscii (l : Str) : Str :=
  l.map (fun c => if 'A' ≤ c ∧ c ≤ 'Z' then Char.ofNat (c.toNat + 32) else c)

/-- Python `needle in haystack` substring test. -/
def hasSubstr : Str → Str → Bool
  | [], nd => nd.isEmpty
  | h :: t, nd => nd.isPrefixOf (h :: t) || hasSubstr t nd

/-- Python `str.strip()`: drop whitespace from both ends. -/
def stripPy (l : Str) : Str :=
  ((l.dropWhile isPyWs).reverse.dropWhile isPyWs).reverse

/-- Worker for `collapseWs`; the flag records being inside a whitespace run
that was already replaced by the single space. -/
def collapseWsAux : Bool → Str → Str
  | _, [] => []
  | true, c :: cs => if isPyWs c then collapseWsAux true cs else c :: collapseWsAux false cs
  | false, [c] => [c]
  | false, c :: d :: cs =>
    if isPyWs c && isPyWs d then ' ' :: collapseWsAux true cs
    else c :: collapseWsAux false (d :: cs)

/-- `re.sub(r"\s{2,}", " ", ln)`: every maximal run of two or more whitespace
characters becomes a single space; an isolated whitespace character is kept as is. -/
def collapseWs (l : Str) : Str := collapseWsAux false l

/-- The per-line cleaning `re.sub(r"\s{2,}", " ", (ln or "")).strip()`. -/
def normalizeLine (l : Str) : Str := stripPy (collapseWs l)

/-- `str.splitlines()`, on the `\n` / `\r\n` / `\r` line boundaries
(the texts fed to the parser are `"\n".join(pages)` of extracted text). -/
def splitlinesAux : Str → Str → List Str
  | '\r' :: '\n' :: rest, acc => acc.reverse :: splitlinesAux rest []
  | '\n' :: rest, acc => acc.reverse :: splitlinesAux rest []
  | '\r' :: rest, acc => acc.reverse :: splitlinesAux rest []
  | c :: rest, acc => splitlinesAux rest (c :: acc)
  | [], acc => if acc.isEmpty then [] else [acc.reverse]

def splitlinesPy (l : Str) : List Str := splitlinesAux l []

/-- Python `str.split()`: maximal runs of non-whitespace characters. -/
def splitWs (l : Str) : List Str :=
  (l.foldr
    (fun c acc =>
      if isPyWs c then [] :: acc
      else
        match acc with
        | [] => [[c]]
        | t :: ts => (c :: t) :: ts)
    []).filter (fun t => !t.isEmpty)

/-- `" ".join(tokens)`. -/
def joinSpace (ts : List Str) : Str := List.intercalate [' '] ts

/-- The character class `[0-9\.\,]` / `[\d,\.]` of the source regexes. -/
def numChar (c : Char) : Bool := c.isDigit || c == ',' || c == '.'

/-- `is_num_token`: `re.fullmatch(r"[0-9][0-9\.\,]*", tok)` — a leading ASCII
digit followed by digits, periods and commas. -/
def is_num_token (t : Str) : Bool :=
  match t with
  | [] => false
  | c :: cs => c.isDigit && cs.all numChar

/-! ### A small backtracking regex matcher

Just the constructs used by the source patterns: character-class one-or-more
(greedy and lazy), bounded greedy class repetition, sequencing, alternation
(left-preferring, giving `(?:...)?` as `alt r eps`), capture groups and the
`$` anchor.  `matchRE` explores candidate splits in exactly Python's
backtracking order, so the first success it finds is the Python match. -/

inductive RE where
  | eps
  | seq (r s : RE)
  | alt (r s : RE)
  | plusG (p : Char → Bool)
  | plusL (p : Char → Bool)
  | rep (p : Char → Bool) (m n : Nat)
  | grp (i : Nat) (r : RE)
  | endAnchor

/-- Captured groups: index paired with the consumed slice. -/
abbrev Caps := List (Nat × Str)

/-- Continuation type of the matcher. -/
abbrev MatchK := Str → Caps → Option Caps

/-- Greedy `p*`: prefer consuming another `p`-character, fall back to stopping. -/
def manyG (p : Char → Bool) : Str → Caps → MatchK → Option Caps
  | [], c, k => k [] c
  | x :: xs, c, k =>
    if p x then
      match manyG p xs c k with
      | some r => some r
      | none => k (x :: xs) c
    else k (x :: xs) c

/-- Lazy `p*`: prefer stopping, fall back to consuming another `p`-character. -/
def manyL (p : Char → Bool) : Str → Caps → MatchK → Option Caps
  | s, c, k =>
    match k s c with
    | some r => some r
    | none =>
      match s with
      | [] => none
      | x :: xs => if p x then manyL p xs c k else none

/-- Exactly `m` characters of class `p`. -/
def exactM (p : Char → Bool) : Nat → Str → Caps → MatchK → Option Caps
  | 0, s, c, k => k s c
  | _ + 1, [], _, _ => none
  | m + 1, x :: xs, c, k => if p x then exactM p m xs c k else none

/-- At most `j` further characters of class `p`, greedily. -/
def uptoG (p : Char → Bool) : Nat → Str → Caps → MatchK → Option Caps
  | 0, s, c, k => k s c
  | j + 1, s, c, k =>
    match s with
    | [] => k [] c
    | x :: xs =>
      if p x then
        match uptoG p j xs c k with
        | some r => some r
        | none => k s c
      else k s c

/-- The backtracking matcher, in continuation-passing style.  `endAnchor` is
Python's `$` outside MULTILINE: end of string or just before a final newline. -/
def matchRE : RE → Str → Caps → MatchK → Option Caps
  | .eps, s, c, k => k s c
  | .seq r t, s, c, k => matchRE r s c (fun s' c' => matchRE t s' c' k)
  | .alt r t, s, c, k =>
    match matchRE r s c k with
    | some res => some res
    | none => matchRE t s c k
  | .plusG p, s, c, k =>
    match s with
    | [] => none
    | x :: xs => if p x then manyG p xs c k else none
  | .plusL p, s, c, k =>
    match s with
    | [] => none
    | x :: xs => if p x then manyL p xs c k else none
  | .rep p m n, s, c, k => exactM p m s c (fun s' c' => uptoG p (n - m) s' c' k)
  | .grp i r, s, c, k =>
    matchRE r s c (fun s' c' => k s' ((i, s.take (s.length - s'.length)) :: c'))
  | .endAnchor, s, c, k => if s = [] ∨ s = ['\n'] then k s c else none

/-- `re.match(pattern, line)`: anchored at the start, returns the captures of
the first match in backtracking order. -/
def reMatch (r : RE) (s : Str) : Option Caps :=
  matchRE r s [] (fun _ c => some c)

/-- `match.group(i)`. -/
def capGroup (caps : Caps) (i : Nat) : Option Str :=
  (caps.find? (fun pr => pr.1 == i)).map (fun pr => pr.2)

/-- `.` of the regexes: any character but a newline. -/
def dotAny (c : Char) : Bool := !(c == '\n')

/-- The Lince row regex of `parse_lince_lines_to_list`:
`^(\d+)\s+(\d{13})\s+(\d{4,8})\s+(.+?)\s+([\d,\.]+)\s+([\d,\.]+)\s+([\d,\.]+)(?:\s+.+)?$`. -/
def lincePattern : RE :=
  .seq (.grp 1 (.plusG Char.isDigit)) <| .seq (.plusG isPyWs) <|
  .seq (.grp 2 (.rep Char.isDigit 13 13)) <| .seq (.plusG isPyWs) <|
  .seq (.grp 3 (.rep Char.isDigit 4 8)) <| .seq (.plusG isPyWs) <|
  .seq (.grp 4 (.plusL dotAny)) <| .seq (.plusG isPyWs) <|
  .seq (.grp 5 (.plusG numChar)) <| .seq (.plusG isPyWs) <|
  .seq (.grp 6 (.plusG numChar)) <| .seq (.plusG isPyWs) <|
  .seq (.grp 7 (.plusG numChar)) <|
  .seq (.alt (.seq (.plusG isPyWs) (.plusG dotAny)) .eps) .endAnchor

/-! ### Exact rationals as the model of Python floats

Mathlib's `ℚ` has `@[irreducible]` arithmetic, which blocks evaluation of
concrete parser runs inside proofs, so the embedding carries its own
normalized fraction type `Q`: an integer numerator with a positive
denominator, reduced by a structurally recursive gcd.  Only the operations
the source uses are provided (addition, negation, division by a positive
natural, scaling by a power of ten, order). -/

/-- An exact rational: numerator, positive denominator. -/
structure Q where
  num : Int
  den : Nat
  dpos : 0 < den

theorem Q.ext' {a b : Q} (hn : a.num = b.num) (hd : a.den = b.den) : a = b := by
  cases a; cases b; cases hn; cases hd; rfl

instance : DecidableEq Q := fun a b =>
  if h : a.num = b.num ∧ a.den = b.den then .isTrue (Q.ext' h.1 h.2)
  else .isFalse (fun e => h (by cases e; exact ⟨rfl, rfl⟩))

/-- Construct the reduced fraction `n / d`. -/
def mkQ (n : Int) (d : Nat) (hd : 0 < d) : Q :=
  ⟨n / (Nat.gcd n.natAbs d : Int), d / Nat.gcd n.natAbs d, by
    have hg : 0 < Nat.gcd n.natAbs d := Nat.gcd_pos_of_pos_right _ hd
    have hgd : Nat.gcd n.natAbs d ∣ d := Nat.gcd_dvd_right _ _
    exact Nat.div_pos (Nat.le_of_dvd hd hgd) hg⟩

def qofInt (n : Int) : Q := ⟨n, 1, one_pos⟩

instance (n : Nat) : OfNat Q n := ⟨qofInt n⟩

instance : NatCast Q := ⟨fun n => qofInt n⟩

def qadd (a b : Q) : Q :=
  mkQ (a.num * b.den + b.num * a.den) (a.den * b.den) (Nat.mul_pos a.dpos b.dpos)

instance : Add Q := ⟨qadd⟩

def qneg (a : Q) : Q := ⟨-a.num, a.den, a.dpos⟩

instance : Neg Q := ⟨qneg⟩

/-- Division by a natural number; total, but every use divides by a
positive number (a power of ten, or `max(1, len(...))`). -/
def qdivNat (a : Q) (n : Nat) : Q :=
  if h : 0 < n then mkQ a.num (a.den * n) (Nat.mul_pos a.dpos h)
  else ⟨a.num, a.den, a.dpos⟩

/-- Scaling by `10 ** z` for a signed exponent `z`. -/
def qmulPow10 (a : Q) (z : Int) : Q :=
  if 0 ≤ z then mkQ (a.num * (10 : Int) ^ z.toNat) a.den a.dpos
  else qdivNat a (10 ^ (-z).toNat)

/-- Decimal literals such as `0.5` or `3491.4`. -/
instance : OfScientific Q :=
  ⟨fun m b e => if b then qdivNat (qofInt m) (10 ^ e) else qofInt (m * (10 : Nat) ^ e)⟩

/-- The order, by cross multiplication (denominators are positive). -/
def qle (a b : Q) : Prop := a.num * (b.den : Int) ≤ b.num * (a.den : Int)

instance : LE Q := ⟨qle⟩

instance : LT Q := ⟨fun a b => ¬ b ≤ a⟩

instance : ∀ a b : Q, Decidable (a ≤ b) := fun a b =>
  inferInstanceAs (Decidable (a.num * (b.den : Int) ≤ b.num * (a.den : Int)))

instance : ∀ a b : Q, Decidable (a < b) := fun _ _ => instDecidableNot

theorem qle_total (a b : Q) : a ≤ b ∨ b ≤ a := Int.le_total _ _

theorem qle_refl (a : Q) : a ≤ a := le_refl (a.num * (a.den : Int))

theorem qle_trans {a b c : Q} (h1 : a ≤ b) (h2 : b ≤ c) : a ≤ c := by
  have hb : (0 : Int) < (b.den : Int) := Int.ofNat_pos.mpr b.dpos
  have h1' : a.num * b.den ≤ b.num * a.den := h1
  have h2' : b.num * c.den ≤ c.num * b.den := h2
  have h3 := mul_le_mul_of_nonneg_right h1' (Int.ofNat_nonneg c.den)
  have h4 := mul_le_mul_of_nonneg_right h2' (Int.ofNat_nonneg a.den)
  have h5 : a.num * c.den * b.den ≤ c.num * a.den * b.den := by nlinarith
  exact le_of_mul_le_mul_right h5 hb

/-- `0 < q` says exactly that the numerator is positive. -/
theorem qpos_iff (q : Q) : 0 < q ↔ 0 < q.num := by
  show ¬ qle q (qofInt 0) ↔ _
  simp [qle, qofInt]

theorem mkQ_num_pos {n : Int} {d : Nat} (hd : 0 < d) (hn : 0 < n) : 0 < (mkQ n d hd).num := by
  have hg : 0 < Nat.gcd n.natAbs d := Nat.gcd_pos_of_pos_right _ hd
  have hgZ : (0 : Int) < (Nat.gcd n.natAbs d : Int) := Int.ofNat_pos.mpr hg
  have hdvd : (Nat.gcd n.natAbs d : Int) ∣ n := by
    have h1 : (Nat.gcd n.natAbs d : Int) ∣ (n.natAbs : Int) :=
      Int.natCast_dvd_natCast.mpr (Nat.gcd_dvd_left _ _)
    exact dvd_trans h1 (Int.natAbs_dvd.mpr dvd_rfl)
  exact Int.ediv_pos_of_pos_of_dvd hn (le_of_lt hgZ) hdvd

/-- Adding two positive rationals gives a positive rational. -/
theorem qadd_pos {a b : Q} (ha : 0 < a) (hb : 0 < b) : 0 < a + b := by
  rw [qpos_iff] at ha hb ⊢
  show 0 < (qadd a b).num
  apply mkQ_num_pos
  have hda : (0 : Int) < (a.den : Int) := Int.ofNat_pos.mpr a.dpos
  have hdb : (0 : Int) < (b.den : Int) := Int.ofNat_pos.mpr b.dpos
  nlinarith

/-! ### Python float values: finite rationals, infinities and NaN

A Python `float` is modeled by `PyF`: a finite value (an exact rational —
the IEEE rounding of decimal literals and of sums is idealized away), the
two infinities, or NaN.  NaN matters to the parser: the fallback branch
feeds an arbitrary token (`valores_tokens[2]`) to `br_to_float`, so
`float("nan")` records are reachable, and every comparison against NaN is
`False` in Python — which `pyLe` reproduces. -/

inductive PyF where
  | fin (q : Q)
  | pinf
  | ninf
  | nan
deriving DecidableEq

/-- Python `x <= y` on floats: `False` whenever either side is NaN,
`-inf` below everything else, `+inf` above everything else. -/
def pyLe : PyF → PyF → Bool
  | .nan, _ => false
  | _, .nan => false
  | .ninf, _ => true
  | _, .pinf => true
  | .pinf, _ => false
  | _, .ninf => false
  | .fin a, .fin b => decide (a ≤ b)

instance : LE PyF := ⟨fun a b => pyLe a b = true⟩

instance : ∀ a b : PyF, Decidable (a ≤ b) := fun a b =>
  inferInstanceAs (Decidable (pyLe a b = true))

instance (n : Nat) : OfNat PyF n := ⟨.fin (qofInt n)⟩

instance : OfScientific PyF :=
  ⟨fun m b e => .fin (OfScientific.ofScientific m b e)⟩

/-- Python `x + y` on floats: NaN is absorbing, opposite infinities give
NaN, an infinity absorbs finite values. -/
def pyAdd : PyF → PyF → PyF
  | .nan, _ => .nan
  | _, .nan => .nan
  | .pinf, .ninf => .nan
  | .ninf, .pinf => .nan
  | .pinf, _ => .pinf
  | _, .pinf => .pinf
  | .ninf, _ => .ninf
  | _, .ninf => .ninf
  | .fin a, .fin b => .fin (a + b)

instance : Add PyF := ⟨pyAdd⟩

theorem pyLe_refl_of_ne_nan {x : PyF} (h : x ≠ PyF.nan) : pyLe x x = true := by
  cases x with
  | fin q => simpa [pyLe] using qle_refl q
  | pinf => rfl
  | ninf => rfl
  | nan => exact absurd rfl h

theorem pyLe_trans {x y z : PyF} (h1 : pyLe x y = true) (h2 : pyLe y z = true) :
    pyLe x z = true := by
  cases x <;> cases y <;> cases z <;> simp_all [pyLe]
  exact qle_trans h1 h2

theorem pyLe_total_of_ne_nan {x y : PyF} (hx : x ≠ PyF.nan) (hy : y ≠ PyF.nan) :
    pyLe x y = true ∨ pyLe y x = true := by
  cases x <;> cases y <;> simp_all [pyLe]
  exact qle_total _ _

/-- The rejection test `x <= 0.0` fails for the sum of two values it fails
for: positive finite values add to a positive value, `+inf` and NaN absorb. -/
theorem pyAdd_not_le_zero {a b : PyF} (ha : ¬ a ≤ (0 : PyF)) (hb : ¬ b ≤ (0 : PyF)) :
    ¬ a + b ≤ (0 : PyF) := by
  have key : ∀ x : PyF, ¬ x ≤ (0 : PyF) ↔ (x = .pinf ∨ x = .nan ∨ ∃ q, x = .fin q ∧ 0 < q) := by
    intro x
    cases x with
    | fin q =>
      show ¬ (pyLe (.fin q) (.fin (qofInt 0)) = true) ↔ _
      simp only [pyLe, decide_eq_true_eq]
      constructor
      · intro h
        exact Or.inr (Or.inr ⟨q, rfl, h⟩)
      · rintro (h | h | ⟨q', hq', hpos⟩) <;> first
          | exact absurd h (by simp)
          | (cases hq'; exact hpos)
    | pinf => simp [LE.le, pyLe]
    | ninf => simp [LE.le, pyLe]
    | nan => simp [LE.le, pyLe]
  rw [key] at ha hb ⊢
  rcases ha with ha | ha | ⟨qa, ha, hqa⟩ <;> rcases hb with hb | hb | ⟨qb, hb, hqb⟩ <;>
    subst_vars <;> simp_all [HAdd.hAdd, Add.add, pyAdd]
  exact qadd_pos hqa hqb

/-! ### Python `float(str)` -/

/-- Value of a digit string (most significant first). -/
def digitsToNat (ds : Str) : Nat :=
  ds.foldl (fun n c => 10 * n + (c.toNat - 48)) 0

/-- A `digitpart` of the Python float grammar: digits with single
underscores allowed between two digits.  Returns the digits (underscores
removed) and the unconsumed rest. -/
def digitsU : Str → Str × Str
  | [] => ([], [])
  | c :: cs =>
    if c.isDigit then
      match cs with
      | '_' :: d :: cs2 =>
        if d.isDigit then
          let p := digitsU (d :: cs2)
          (c :: p.1, p.2)
        else ([c], cs)
      | d :: cs2 =>
        if d.isDigit then
          let p := digitsU (d :: cs2)
          (c :: p.1, p.2)
        else ([c], cs)
      | [] => ([c], [])
    else ([], c :: cs)

/-- The exponent digits, after an optional sign. -/
def expTail (r : Str) : Str :=
  match r with
  | '+' :: rr => rr
  | '-' :: rr => rr
  | rr => rr

/-- The sign of the exponent. -/
def expSign (r : Str) : Int :=
  match r with
  | '+' :: _ => 1
  | '-' :: _ => -1
  | _ => 1

/-- Optional exponent suffix `([eE][+-]?digitpart)?` followed by end of
string; anything else fails like `float(...)` raising `ValueError`. -/
def pyFloatExp (rest : Str) (m : Q) : Option Q :=
  match rest with
  | [] => some m
  | e :: r =>
    if e = 'e' ∨ e = 'E' then
      if (digitsU (expTail r)).1.isEmpty ∨ ¬(digitsU (expTail r)).2.isEmpty then none
      else some (qmulPow10 m (expSign r * (digitsToNat (digitsU (expTail r)).1 : Int)))
    else none

/-- Unsigned finite mantissa: a digitpart with at most one period and at
least one digit. -/
def pyFloatCore (r : Str) : Option Q :=
  let ip := (digitsU r).1
  let r1 := (digitsU r).2
  match r1 with
  | '.' :: r2 =>
    let fp := (digitsU r2).1
    let r3 := (digitsU r2).2
    if ip.isEmpty ∧ fp.isEmpty then none
    else pyFloatExp r3 ((digitsToNat ip : Q) + qdivNat (digitsToNat fp : Q) (10 ^ fp.length))
  | _ => if ip.isEmpty then none else pyFloatExp r1 (digitsToNat ip : Q)

/-- After the sign: the case-insensitive keywords `nan`, `inf` and
`infinity`, else a finite literal (Python ignores the sign of `nan`). -/
def pyFloatSigned (neg : Bool) (r : Str) : Option PyF :=
  if toLowerAscii r = "nan".toList then some .nan
  else if toLowerAscii r = "inf".toList ∨ toLowerAscii r = "infinity".toList then
    some (if neg then .ninf else .pinf)
  else (pyFloatCore r).map (fun q => .fin (if neg then -q else q))

/-- Python `float(str)`: strip, optional sign, keywords or finite literal. -/
def pyFloat (s : Str) : Option PyF :=
  match stripPy s with
  | '+' :: r => pyFloatSigned false r
  | '-' :: r => pyFloatSigned true r
  | r => pyFloatSigned false r

/-- The Brazilian-convention rewrite inside `br_to_float`:
`t.replace(".", "").replace(",", ".")`. -/
def brRewrite (t : Str) : Str :=
  (t.filter (fun c => !(c == '.'))).map (fun c => if c = ',' then '.' else c)

/-- `br_to_float(txt)` of `src/app.py`: `None` passes through; the stripped
text, when it contains a comma, is first parsed with periods removed and the
comma as decimal point; on failure (or without a comma) it is parsed with
commas removed; a failed parse gives `None` instead of an exception. -/
def br_to_float : Option Str → Option PyF
  | none => none
  | some txt =>
    let t := stripPy txt
    if t.isEmpty then none
    else
      let en : Option PyF := pyFloat (t.filter (fun c => !(c == ',')))
      if ',' ∈ t then
        match pyFloat (brRewrite t) with
        | some v => some v
        | none => en
      else en

/-! ### Per-line record extraction -/

/-- The `lixo_keywords` boilerplate markers of `parse_lince_lines_to_list`. -/
def lixoKeywords : List Str :=
  ["Curva ABC", "Período", "CST", "ECF", "Situação Tributária",
   "Classif.", "Codigo", "Barras", "Total do Departamento",
   "Total Geral", "www.grupotecnoweb.com.br", "Lince", "SHOPPING DO PAO",
   "Pag.", "Por Valor", "Departamento:", "Custo", "Pco. Médio",
   "Qtde", "Valor", "Vl. Acum", "Acum.", "Produto", "Venda"].map String.toList

/-- `any(k.lower() in ln.lower() for k in lixo_keywords)`. -/
def hasLixo (l : Str) : Bool :=
  lixoKeywords.any (fun k => hasSubstr (toLowerAscii l) (toLowerAscii k))

/-- One product row, and also one entry of the aggregation dictionary:
`{"nome": ..., "quantidade": ..., "valor": ...}`. -/
structure ProdutoRec where
  nome : Str
  quantidade : PyF
  valor : PyF
deriving DecidableEq

/-- The character class `[A-Za-zÀ-ÖØ-öø-ÿ]` of the name-validation regex. -/
def nameAlpha (c : Char) : Bool :=
  let n := c.toNat
  (65 ≤ n && n ≤ 90) || (97 ≤ n && n ≤ 122) ||
  (192 ≤ n && n ≤ 214) || (216 ≤ n && n ≤ 246) || (248 ≤ n && n ≤ 255)

/-- `re.search(r"[A-Za-zÀ-ÖØ-öø-ÿ]{3,}", nome)`: some window of three
consecutive characters is alphabetic. -/
def hasAlphaRun3 : Str → Bool
  | a :: b :: c :: rest =>
    (nameAlpha a && nameAlpha b && nameAlpha c) || hasAlphaRun3 (b :: c :: rest)
  | _ => false

/-- The validation block shared verbatim by both branches of the source:
reject when the name is empty or shorter than 3, when quantity or value
failed to parse or is `<= 0`, or when the name has no three-letter
alphabetic run; otherwise emit the record. -/
def validateAndEmit (nome : Str) (qtd valor : Option PyF) : Option ProdutoRec :=
  if nome.isEmpty ∨ nome.length < 3 then none
  else
    match qtd with
    | none => none
    | some q =>
      if q ≤ 0 then none
      else
        match valor with
        | none => none
        | some v =>
          if v ≤ 0 then none
          else if !hasAlphaRun3 nome then none
          else some ⟨nome, q, v⟩

/-- The regex branch: on a match of `lincePattern`, group 4 (name, stripped),
group 6 (quantity token) and group 7 (value token); group 5 (`custo`) is
parsed by the source but never used. -/
def regexExtract (l : Str) : Option (Str × Str × Str) :=
  match reMatch lincePattern l with
  | none => none
  | some caps =>
    match capGroup caps 4, capGroup caps 6, capGroup caps 7 with
    | some g4, some g6, some g7 => some (g4, g6, g7)
    | _, _, _ => none

/-- `re.match(r'^\d{13}$', tok)` / `re.match(r'^\d{4,8}$', tok)`:
all digits with length between `m` and `n`. -/
def isDigitsLen (m n : Nat) (t : Str) : Bool :=
  t.all Char.isDigit && decide (m ≤ t.length) && decide (t.length ≤ n)

/-- First index among the given tokens holding exactly 13 digits
(the source scans `tokens[:3]`). -/
def barcodeIdx : List Str → Option Nat
  | [] => none
  | t :: ts =>
    if isDigitsLen 13 13 t then some 0 else (barcodeIdx ts).map (· + 1)

/-- Offset of the first token that is numeric and followed by another numeric
token (the `nome_end` search; the last token never qualifies). -/
def findConsecNum : List Str → Option Nat
  | t :: u :: rest =>
    if is_num_token t && is_num_token u then some 0
    else (findConsecNum (u :: rest)).map (· + 1)
  | _ => none

/-- The fallback branch of `parse_lince_lines_to_list`: at least 7 tokens, a
13-digit barcode among the first 3, a 4-8 digit code right after it, a
nonempty name up to the first pair of consecutive numeric tokens, then
`[custo, quantidade, valor, ...]`. -/
def fallbackExtract (l : Str) : Option ProdutoRec :=
  let tokens := splitWs l
  if tokens.length < 7 then none
  else
    match barcodeIdx (tokens.take 3) with
    | none => none
    | some b =>
      match tokens.get? (b + 1) with
      | none => none
      | some codeTok =>
        if !isDigitsLen 4 8 codeTok then none
        else
          let rest := tokens.drop (b + 2)
          match findConsecNum rest with
          | none => none
          | some k =>
            if k = 0 then none
            else
              let nome := joinSpace (rest.take k)
              let valores := rest.drop k
              if valores.length < 3 then none
              else validateAndEmit nome (br_to_float (valores.get? 1)) (br_to_float (valores.get? 2))

/-- The whole per-cleaned-line step of the parsing loop:
skip empty/short lines, skip boilerplate, then the regex branch
(whose validation failures do NOT fall through to the fallback),
else the token-based fallback branch. -/
def lineToProduto (l : Str) : Option ProdutoRec :=
  if l.isEmpty ∨ l.length < 20 then none
  else if hasLixo l then none
  else
    match regexExtract l with
    | some (g4, g6, g7) =>
      validateAndEmit (stripPy g4) (br_to_float (some g6)) (br_to_float (some g7))
    | none => fallbackExtract l

/-! ### Aggregation and sorting -/

/-- One step of the name-keyed aggregation dictionary: the first record with
this name accumulates the fields, a new name is appended at the end
(Python dicts preserve insertion order).  `0.0 + q` is written `q`. -/
def upsert (acc : List ProdutoRec) (p : ProdutoRec) : List ProdutoRec :=
  match acc with
  | [] => [p]
  | r :: rs =>
    if r.nome = p.nome then ⟨r.nome, r.quantidade + p.quantidade, r.valor + p.valor⟩ :: rs
    else r :: upsert rs p

/-- The aggregation loop over all parsed rows. -/
def aggProdutos (l : List ProdutoRec) : List ProdutoRec := l.foldl upsert []

/-- The sort key relation of `sorted(..., key=lambda x: x["valor"], reverse=True)`. -/
def valGE (a b : ProdutoRec) : Prop := b.valor ≤ a.valor

instance : DecidableRel valGE := fun a b => inferInstanceAs (Decidable (b.valor ≤ a.valor))

/-- All rows extracted from the document text, in line order. -/
def extractProdutos (text : Str) : List ProdutoRec :=
  ((splitlinesPy text).map normalizeLine).filterMap lineToProduto

/-- Parsing, aggregation and stable sorting starting from the cleaned lines
(`sorted` with `reverse=True` is a stable sort by the key, modeled by
insertion sort along `valGE`). -/
def parseCleanedLines (ls : List Str) : List ProdutoRec :=
  List.insertionSort valGE (aggProdutos (ls.filterMap lineToProduto))

/-- `parse_lince_lines_to_list(text)`: the full parser entry point. -/
def parse_lince_lines_to_list (text : Str) : List ProdutoRec :=
  parseCleanedLines ((splitlinesPy text).map normalizeLine)

/-! ### Line-wrap repair (`glue_wrapped_lines`, defined but never called by
the parser entry point) -/

/-- Length of the trailing contiguous run of numeric tokens. -/
def tailNumLen (cur : Str) : Nat :=
  ((splitWs cur).reverse.takeWhile is_num_token).length

/-- `nxt_num_ratio`: numeric tokens over all tokens (0 for a token-free line). -/
def numTokenFrac (nxt : Str) : Q :=
  let toks := splitWs nxt
  if toks.isEmpty then 0
  else qdivNat (toks.countP is_num_token : Q) (max 1 toks.length)

/-- The merge condition: current tail shorter than 2 and next line at least
half numeric tokens. -/
def glueCond (cur nxt : Str) : Prop :=
  tailNumLen cur < 2 ∧ (0.5 : Q) ≤ numTokenFrac nxt

instance : ∀ c n, Decidable (glueCond c n) := fun _ _ => instDecidableAnd

/-- `glue_wrapped_lines(lines)`: a single forward pass joining a line with a
short numeric tail to a following mostly-numeric line. -/
def glue_wrapped_lines : List Str → List Str
  | [] => []
  | [c] => if glueCond c [] then [stripPy (c ++ ' ' :: ([] : Str))] else [c]
  | c :: n :: rest =>
    if glueCond c n then stripPy (c ++ ' ' :: n) :: glue_wrapped_lines rest
    else c :: glue_wrapped_lines (n :: rest)

/-! ### Lemmas about the aggregation dictionary -/

/-- Folding the records of one fixed name into an aggregate list
(the shape `aggProdutos` takes on the records of a single name). -/
def addName (a : List ProdutoRec) (ps : List ProdutoRec) : List ProdutoRec :=
  ps.foldl
    (fun a p =>
      match a with
      | [] => [p]
      | r :: t => ⟨r.nome, r.quantidade + p.quantidade, r.valor + p.valor⟩ :: t)
    a

theorem filter_upsert (acc : List ProdutoRec) (p : ProdutoRec) (n : Str) :
    (upsert acc p).filter (fun r => decide (r.nome = n)) =
      if p.nome = n then
        match acc.filter (fun r => decide (r.nome = n)) with
        | [] => [p]
        | r :: t => ⟨r.nome, r.quantidade + p.quantidade, r.valor + p.valor⟩ :: t
      else acc.filter (fun r => decide (r.nome = n)) := by
  induction acc with
  | nil =>
    by_cases h : p.nome = n <;> simp [upsert, h]
  | cons r rs ih =>
    by_cases hrp : r.nome = p.nome
    · by_cases hn : p.nome = n
      · have hrn : r.nome = n := by rw [hrp, hn]
        simp [upsert, hrp, hn, hrn, List.filter]
      · have hrn : ¬ r.nome = n := fun h => hn (hrp ▸ h)
        simp [upsert, hrp, hn, hrn, List.filter]
    · by_cases hrn : r.nome = n
      · have hn : ¬ p.nome = n := fun h => hrp (h ▸ hrn ▸ rfl)
        have hn' : ¬ n = p.nome := fun h => hn h.symm
        simp [upsert, hrp, hrn, hn, hn', List.filter, ih]
      · simp [upsert, hrp, hrn, List.filter, ih]

theorem filter_foldl_upsert (l : List ProdutoRec) (acc : List ProdutoRec) (n : Str) :
    (l.foldl upsert acc).filter (fun r => decide (r.nome = n)) =
      addName (acc.filter (fun r => decide (r.nome = n)))
        (l.filter (fun p => decide (p.nome = n))) := by
  induction l generalizing acc with
  | nil => rfl
  | cons p l' ih =>
    show (l'.foldl upsert (upsert acc p)).filter _ = _
    rw [ih, filter_upsert]
    by_cases hn : p.nome = n
    · simp only [hn, if_true, List.filter, decide_eq_true_eq]
      simp [hn, addName]
    · simp [hn, List.filter]

/-- Aggregating a list whose records of name `n` are exactly two gives one
record of name `n` carrying the two sums. -/
theorem filter_agg_two {l : List ProdutoRec} {n : Str} {q1 v1 q2 v2 : PyF}
    (h : l.filter (fun p => decide (p.nome = n)) = [⟨n, q1, v1⟩, ⟨n, q2, v2⟩]) :
    (aggProdutos l).filter (fun r => decide (r.nome = n)) = [⟨n, q1 + q2, v1 + v2⟩] := by
  show (l.foldl upsert []).filter _ = _
  rw [filter_foldl_upsert, h]
  rfl

theorem names_upsert (acc : List ProdutoRec) (p : ProdutoRec) :
    (upsert acc p).map (fun r => r.nome) =
      if p.nome ∈ acc.map (fun r => r.nome) then acc.map (fun r => r.nome)
      else acc.map (fun r => r.nome) ++ [p.nome] := by
  induction acc with
  | nil => simp [upsert]
  | cons r rs ih =>
    by_cases hrp : r.nome = p.nome
    · have hmem : p.nome ∈ (r :: rs).map (fun r => r.nome) := by
        simp only [List.map_cons, List.mem_cons]
        exact Or.inl hrp.symm
      rw [if_pos hmem]
      simp [upsert, hrp]
    · have hne : ¬ p.nome = r.nome := fun h => hrp h.symm
      simp only [upsert, if_neg hrp, List.map_cons, ih]
      by_cases hm : p.nome ∈ rs.map (fun r => r.nome)
      · rw [if_pos hm, if_pos (List.mem_cons_of_mem _ hm)]
      · have hnotin : p.nome ∉ r.nome :: rs.map (fun r => r.nome) := by
          intro h
          rcases List.mem_cons.mp h with h1 | h2
          · exact hne h1
          · exact hm h2
        rw [if_neg hm, if_neg hnotin, List.cons_append]

theorem nodup_foldl_upsert (l : List ProdutoRec) (acc : List ProdutoRec)
    (h : (acc.map (fun r => r.nome)).Nodup) :
    ((l.foldl upsert acc).map (fun r => r.nome)).Nodup := by
  induction l generalizing acc with
  | nil => exact h
  | cons p l' ih =>
    show ((l'.foldl upsert (upsert acc p)).map _).Nodup
    apply ih
    rw [names_upsert]
    by_cases hm : p.nome ∈ acc.map (fun r => r.nome)
    · simpa [hm] using h
    · rw [if_neg hm]
      apply List.Nodup.append h (List.nodup_singleton _)
      intro x hx hx2
      simp only [List.mem_singleton] at hx2
      exact hm (hx2 ▸ hx)

theorem nodup_agg (l : List ProdutoRec) : ((aggProdutos l).map (fun r => r.nome)).Nodup :=
  nodup_foldl_upsert l [] (by simp)

/-- The non-rejection predicate `¬ x <= 0.0` is preserved by one
aggregation step (`pyAdd_not_le_zero` covers the NaN/`inf` cases). -/
theorem mem_upsert_not_le_zero {acc : List ProdutoRec} {p r : ProdutoRec}
    (hacc : ∀ x ∈ acc, ¬ x.quantidade ≤ (0 : PyF) ∧ ¬ x.valor ≤ (0 : PyF))
    (hp : ¬ p.quantidade ≤ (0 : PyF) ∧ ¬ p.valor ≤ (0 : PyF))
    (hr : r ∈ upsert acc p) : ¬ r.quantidade ≤ (0 : PyF) ∧ ¬ r.valor ≤ (0 : PyF) := by
  induction acc with
  | nil =>
    simp only [upsert, List.mem_singleton] at hr
    exact hr ▸ hp
  | cons a rs ih =>
    by_cases hap : a.nome = p.nome
    · simp only [upsert, hap, if_true, List.mem_cons] at hr
      rcases hr with hr | hr
      · have ha := hacc a (by simp)
        exact hr ▸ ⟨pyAdd_not_le_zero ha.1 hp.1, pyAdd_not_le_zero ha.2 hp.2⟩
      · exact hacc r (by simp [hr])
    · simp only [upsert, hap, if_false, List.mem_cons] at hr
      rcases hr with hr | hr
      · exact hacc r (by simp [hr])
      · exact ih (fun x hx => hacc x (by simp [hx])) hr

theorem mem_agg_not_le_zero {l : List ProdutoRec}
    (hl : ∀ p ∈ l, ¬ p.quantidade ≤ (0 : PyF) ∧ ¬ p.valor ≤ (0 : PyF)) :
    ∀ r ∈ aggProdutos l, ¬ r.quantidade ≤ (0 : PyF) ∧ ¬ r.valor ≤ (0 : PyF) := by
  show ∀ r ∈ l.foldl upsert [], _
  have main : ∀ (l' : List ProdutoRec) (acc : List ProdutoRec),
      (∀ p ∈ l', ¬ p.quantidade ≤ (0 : PyF) ∧ ¬ p.valor ≤ (0 : PyF)) →
      (∀ x ∈ acc, ¬ x.quantidade ≤ (0 : PyF) ∧ ¬ x.valor ≤ (0 : PyF)) →
      ∀ r ∈ l'.foldl upsert acc, ¬ r.quantidade ≤ (0 : PyF) ∧ ¬ r.valor ≤ (0 : PyF) := by
    intro l'
    induction l' with
    | nil => intro acc _ hacc r hr; exact hacc r hr
    | cons p t ih =>
      intro acc hl' hacc r hr
      exact ih (upsert acc p) (fun x hx => hl' x (by simp [hx]))
        (fun x hx => mem_upsert_not_le_zero hacc (hl' p (by simp)) hx) r hr
  exact main l [] hl (by simp)

/-! ### Lemmas about the stable sort by value -/

/-- Inserting a record leaves the subsequence of any fixed non-NaN value `v`
untouched, except that a record of value `v` enters in front of it
(the skipped records all have strictly larger value; for `v = nan` the
records skipped over may themselves hold `nan`, so `v ≠ nan` is required). -/
theorem filter_orderedInsert (v : PyF) (hv : v ≠ PyF.nan) (x : ProdutoRec)
    (s : List ProdutoRec) :
    (List.orderedInsert valGE x s).filter (fun r => decide (r.valor = v)) =
      if x.valor = v then x :: s.filter (fun r => decide (r.valor = v))
      else s.filter (fun r => decide (r.valor = v)) := by
  induction s with
  | nil =>
    by_cases h : x.valor = v <;> simp [List.orderedInsert, List.filter, h]
  | cons y ys ih =>
    show (if valGE x y then x :: y :: ys else y :: List.orderedInsert valGE x ys).filter _ = _
    by_cases hxy : valGE x y
    · rw [if_pos hxy]
      by_cases hx : x.valor = v <;> simp [List.filter, hx]
    · rw [if_neg hxy]
      by_cases hy : y.valor = v
      · by_cases hx : x.valor = v
        · refine absurd ?_ hxy
          show pyLe y.valor x.valor = true
          rw [hy, hx]
          exact pyLe_refl_of_ne_nan hv
        · simp [List.filter, hy, hx, ih]
      · by_cases hx : x.valor = v <;> simp [List.filter, hy, hx, ih]

/-- The stable sort preserves, for each non-NaN value `v`, the subsequence
of records holding exactly that value. -/
theorem filter_insertionSort (v : PyF) (hv : v ≠ PyF.nan) (l : List ProdutoRec) :
    (List.insertionSort valGE l).filter (fun r => decide (r.valor = v)) =
      l.filter (fun r => decide (r.valor = v)) := by
  induction l with
  | nil => rfl
  | cons a l' ih =>
    show (List.orderedInsert valGE a (List.insertionSort valGE l')).filter _ = _
    rw [filter_orderedInsert v hv]
    by_cases ha : a.valor = v <;> simp [List.filter, ha, ih]

/-- Inserting a non-NaN-valued record into a `valGE`-sorted list of
non-NaN-valued records keeps it sorted (`pyLe` is transitive outright, and
total away from NaN). -/
theorem pairwise_orderedInsert {x : ProdutoRec} {s : List ProdutoRec}
    (hx : x.valor ≠ PyF.nan) (hs : ∀ r ∈ s, r.valor ≠ PyF.nan)
    (h : List.Pairwise valGE s) : List.Pairwise valGE (List.orderedInsert valGE x s) := by
  induction s with
  | nil => exact List.pairwise_singleton _ _
  | cons y ys ih =>
    rw [List.pairwise_cons] at h
    show List.Pairwise valGE (if valGE x y then x :: y :: ys else
      y :: List.orderedInsert valGE x ys)
    by_cases hxy : valGE x y
    · rw [if_pos hxy]
      refine List.pairwise_cons.mpr ⟨?_, List.pairwise_cons.mpr h⟩
      intro z hz
      rcases List.mem_cons.mp hz with hz | hz
      · exact hz ▸ hxy
      · exact pyLe_trans (h.1 z hz) hxy
    · rw [if_neg hxy]
      refine List.pairwise_cons.mpr ⟨?_, ih (fun r hr => hs r (by simp [hr])) h.2⟩
      intro z hz
      rcases (List.mem_orderedInsert valGE).mp hz with hz | hz
      · subst hz
        rcases pyLe_total_of_ne_nan hx (hs y (by simp)) with ht | ht
        · exact ht
        · exact absurd ht hxy
      · exact h.1 z hz

/-- Sorting a list of non-NaN-valued records really sorts it: adjacent
(indeed all) pairs satisfy `valGE`.  (With a NaN value in the list this can
fail: every comparison against NaN is `False`.) -/
theorem pairwise_insertionSort {l : List ProdutoRec}
    (hl : ∀ r ∈ l, r.valor ≠ PyF.nan) :
    List.Pairwise valGE (List.insertionSort valGE l) := by
  induction l with
  | nil => exact List.Pairwise.nil
  | cons a l' ih =>
    show List.Pairwise valGE (List.orderedInsert valGE a (List.insertionSort valGE l'))
    refine pairwise_orderedInsert (hl a (by simp)) ?_ (ih (fun r hr => hl r (by simp [hr])))
    intro r hr
    exact hl r (by simp [(List.perm_insertionSort valGE l').mem_iff.mp hr])

/-! ### Every emitted record passes the `<= 0` rejection tests -/

theorem validateAndEmit_not_le_zero {nome : Str} {qtd valor : Option PyF} {p : ProdutoRec}
    (h : validateAndEmit nome qtd valor = some p) :
    ¬ p.quantidade ≤ (0 : PyF) ∧ ¬ p.valor ≤ (0 : PyF) := by
  unfold validateAndEmit at h
  split at h
  · exact absurd h (by simp)
  · split at h
    · exact absurd h (by simp)
    · rename_i q _
      split at h
      · exact absurd h (by simp)
      · split at h
        · exact absurd h (by simp)
        · rename_i v _
          split at h
          · exact absurd h (by simp)
          · split at h
            · exact absurd h (by simp)
            · rename_i hq _ hv _
              cases h
              exact ⟨hq, hv⟩

theorem fallbackExtract_not_le_zero {l : Str} {p : ProdutoRec}
    (h : fallbackExtract l = some p) :
    ¬ p.quantidade ≤ (0 : PyF) ∧ ¬ p.valor ≤ (0 : PyF) := by
  unfold fallbackExtract at h
  dsimp only at h
  split at h
  · exact absurd h (by simp)
  · split at h
    · exact absurd h (by simp)
    · split at h
      · exact absurd h (by simp)
      · split at h
        · exact absurd h (by simp)
        · split at h
          · exact absurd h (by simp)
          · split at h
            · exact absurd h (by simp)
            · split at h
              · exact absurd h (by simp)
              · exact validateAndEmit_not_le_zero h

theorem lineToProduto_not_le_zero {l : Str} {p : ProdutoRec}
    (h : lineToProduto l = some p) :
    ¬ p.quantidade ≤ (0 : PyF) ∧ ¬ p.valor ≤ (0 : PyF) := by
  unfold lineToProduto at h
  split at h
  · exact absurd h (by simp)
  · split at h
    · exact absurd h (by simp)
    · split at h
      · exact validateAndEmit_not_le_zero h
      · exact fallbackExtract_not_le_zero h

theorem parse_mem_not_le_zero {text : Str} {r : ProdutoRec}
    (h : r ∈ parse_lince_lines_to_list text) :
    ¬ r.quantidade ≤ (0 : PyF) ∧ ¬ r.valor ≤ (0 : PyF) := by
  have hmem : r ∈ aggProdutos (((splitlinesPy text).map normalizeLine).filterMap lineToProduto) :=
    (List.perm_insertionSort valGE _).mem_iff.mp h
  apply mem_agg_not_le_zero _ r hmem
  intro p hp
  rcases List.mem_filterMap.mp hp with ⟨ln, _, hln⟩
  exact lineToProduto_not_le_zero hln

/-! ### Lemmas about the number parser -/

/-- Number of periods in a token. -/
def dotCount (l : Str) : Nat := l.countP (fun c => decide (c = '.'))

theorem dotCount_cons (c : Char) (l : Str) :
    dotCount (c :: l) = dotCount l + if c = '.' then 1 else 0 := by
  simp [dotCount, List.countP_cons]

theorem dotCount_cons_ne {c : Char} (l : Str) (h : ¬ c = '.') :
    dotCount (c :: l) = dotCount l := by
  simp [dotCount_cons, h]

theorem dot_not_digit {c : Char} (h : c.isDigit = true) : ¬ c = '.' := by
  intro he
  rw [he] at h
  simp [Char.isDigit] at h

/-- A digitpart consumes only digits and underscores, so the periods all
remain in the unconsumed rest. -/
theorem dotCount_digitsU (l : Str) : dotCount (digitsU l).2 = dotCount l := by
  induction l using digitsU.induct <;>
    simp_all [digitsU, dotCount_cons, dot_not_digit]
  rename_i c cs h
  have hd : digitsU (c :: cs) = ([], c :: cs) := by
    unfold digitsU
    rw [if_neg (by simp [h])]
  rw [hd]
  exact dotCount_cons c cs

theorem ne_nil_of_dotCount_pos {l : Str} (h : 0 < dotCount l) : l ≠ [] := by
  intro he
  subst he
  simp [dotCount] at h

theorem dotCount_expTail (r : Str) : dotCount (expTail r) = dotCount r := by
  unfold expTail
  split
  · rw [dotCount_cons_ne _ (by decide)]
  · rw [dotCount_cons_ne _ (by decide)]
  · rfl

theorem pyFloatExp_none_of_dot {rest : Str} (m : Q) (h : 0 < dotCount rest) :
    pyFloatExp rest m = none := by
  cases rest with
  | nil => simp [dotCount] at h
  | cons e r =>
    unfold pyFloatExp
    dsimp only
    by_cases he : e = 'e' ∨ e = 'E'
    · rw [if_pos he]
      have hed : ¬ e = '.' := by
        rcases he with he | he <;> simp [he]
      rw [dotCount_cons_ne _ hed] at h
      have hr : 0 < dotCount (digitsU (expTail r)).2 := by
        rw [dotCount_digitsU, dotCount_expTail]
        exact h
      have hne : ¬ (digitsU (expTail r)).2.isEmpty = true := by
        intro hemp
        exact ne_nil_of_dotCount_pos hr (List.isEmpty_iff.mp hemp)
      rw [if_pos (Or.inr hne)]
    · rw [if_neg he]

theorem pyFloatCore_none_of_dots {r : Str} (h : 2 ≤ dotCount r) : pyFloatCore r = none := by
  have h1 : 2 ≤ dotCount (digitsU r).2 := by
    rw [dotCount_digitsU]; exact h
  unfold pyFloatCore
  dsimp only
  split
  · rename_i r2 heq
    rw [heq, dotCount_cons] at h1
    have h2 : 0 < dotCount (digitsU r2).2 := by
      rw [dotCount_digitsU]
      simp at h1
      omega
    split
    · rfl
    · exact pyFloatExp_none_of_dot _ h2
  · split
    · rfl
    · exact pyFloatExp_none_of_dot _ (by omega)

/-- A whitespace-free string is unchanged by `str.strip()`. -/
theorem stripPy_eq_self {t : Str} (h : (t.all fun c => !isPyWs c) = true) : stripPy t = t := by
  have hmem : ∀ c ∈ t, isPyWs c = false := by
    intro c hc
    have := List.all_eq_true.mp h c hc
    simpa using this
  have h1 : t.dropWhile isPyWs = t := by
    cases t with
    | nil => rfl
    | cons c cs =>
      rw [List.dropWhile_cons_of_neg]
      simp [hmem c (by simp)]
  have h2 : t.reverse.dropWhile isPyWs = t.reverse := by
    rcases hrev : t.reverse with _ | ⟨c, cs⟩
    · rfl
    · have hcmem : c ∈ t := by
        rw [← List.mem_reverse, hrev]
        simp
      rw [List.dropWhile_cons_of_neg]
      simp [hmem c hcmem]
  show ((t.dropWhile isPyWs).reverse.dropWhile isPyWs).reverse = t
  rw [h1, h2, List.reverse_reverse]

/-- ASCII lowering maps the period to itself. -/
theorem mem_dot_toLowerAscii {l : Str} (h : '.' ∈ l) : '.' ∈ toLowerAscii l := by
  unfold toLowerAscii
  have hfix : (if 'A' ≤ '.' ∧ '.' ≤ 'Z' then Char.ofNat ('.'.toNat + 32) else '.') = '.' := by
    decide
  exact hfix ▸ List.mem_map_of_mem _ h

/-- A token with two periods is no `nan`/`inf`/`infinity` keyword, and its
finite-literal parse fails. -/
theorem pyFloatSigned_none_of_dots {r : Str} (neg : Bool) (h : 2 ≤ dotCount r) :
    pyFloatSigned neg r = none := by
  have hdot : '.' ∈ r := by
    have hp : 0 < r.countP (fun c => decide (c = '.')) := by
      have : 0 < dotCount r := by omega
      exact this
    rcases List.countP_pos_iff.mp hp with ⟨c, hc, hcp⟩
    have : c = '.' := of_decide_eq_true hcp
    exact this ▸ hc
  have hlow : '.' ∈ toLowerAscii r := mem_dot_toLowerAscii hdot
  have h1 : ¬ toLowerAscii r = "nan".toList := by
    intro he
    rw [he] at hlow
    exact absurd hlow (by decide)
  have h2 : ¬ (toLowerAscii r = "inf".toList ∨ toLowerAscii r = "infinity".toList) := by
    rintro (he | he) <;> rw [he] at hlow <;> exact absurd hlow (by decide)
  unfold pyFloatSigned
  rw [if_neg h1, if_neg h2, pyFloatCore_none_of_dots h]
  rfl

theorem pyFloat_none_of_two_dots {t : Str} (hstrip : stripPy t = t)
    (hdots : 2 ≤ dotCount t) : pyFloat t = none := by
  unfold pyFloat
  rw [hstrip]
  split
  · rename_i r
    rw [dotCount_cons_ne _ (by decide)] at hdots
    exact pyFloatSigned_none_of_dots false hdots
  · rename_i r
    rw [dotCount_cons_ne _ (by decide)] at hdots
    exact pyFloatSigned_none_of_dots true hdots
  · exact pyFloatSigned_none_of_dots false hdots

/-- A comma-free string is unchanged by `t.replace(",", "")`. -/
theorem filter_comma_eq_self {t : Str} (hc : ',' ∉ t) :
    t.filter (fun c => !(c == ',')) = t := by
  rw [List.filter_eq_self]
  intro c hcm
  simp only [Bool.not_eq_true']
  exact beq_eq_false_iff_ne.mpr (fun h => hc (h ▸ hcm))

/-- `br_to_float` on a whitespace-free token with two or more periods and no
comma: the comma branch is skipped, the EN attempt keeps the periods, and
`float` fails, so the result is `None`. -/
theorem br_to_float_two_dots {t : Str} (hws : (t.all fun c => !isPyWs c) = true)
    (hdots : 2 ≤ dotCount t) (hcomma : ',' ∉ t) : br_to_float (some t) = none := by
  have hstrip : stripPy t = t := stripPy_eq_self hws
  have hne : t ≠ [] := by
    intro h
    subst h
    simp [dotCount] at hdots
  unfold br_to_float
  dsimp only
  rw [hstrip, if_neg (by simp [hne]), if_neg hcomma, filter_comma_eq_self hcomma]
  exact pyFloat_none_of_two_dots hstrip hdots

/-- The comma branch of `br_to_float`: when the Brazilian-convention rewrite
parses, its value is returned. -/
theorem br_to_float_comma_hit {t : Str} {q : PyF} (hws : (t.all fun c => !isPyWs c) = true)
    (hc : ',' ∈ t) (hq : pyFloat (brRewrite t) = some q) : br_to_float (some t) = some q := by
  have hstrip : stripPy t = t := stripPy_eq_self hws
  have hne : t ≠ [] := List.ne_nil_of_mem hc
  unfold br_to_float
  dsimp only
  rw [hstrip, if_neg (by simp [hne]), if_pos hc, hq]

/-- Without a comma, `br_to_float` is a plain `float` parse of the token. -/
theorem br_to_float_no_comma {t : Str} (hws : (t.all fun c => !isPyWs c) = true)
    (hne : t ≠ []) (hc : ',' ∉ t) : br_to_float (some t) = pyFloat t := by
  have hstrip : stripPy t = t := stripPy_eq_self hws
  unfold br_to_float
  dsimp only
  rw [hstrip, if_neg (by simp [hne]), if_neg hc, filter_comma_eq_self hc]

/-! ### Evaluation helpers for concrete runs -/

/-- On a long enough, non-boilerplate line matched by the Lince regex, the
per-line step is the validation of the stripped name and the two parsed
numbers. -/
theorem lineToProduto_regex_eq {l g4 g6 g7 : Str}
    (hlen : ¬(l.isEmpty = true ∨ l.length < 20))
    (hlixo : hasLixo l = false)
    (hre : regexExtract l = some (g4, g6, g7)) :
    lineToProduto l =
      validateAndEmit (stripPy g4) (br_to_float (some g6)) (br_to_float (some g7)) := by
  unfold lineToProduto
  rw [if_neg hlen, if_neg (by simp [hlixo]), hre]

/-- A line on which the per-line step fails contributes nothing: the parse of
the cleaned lines with it equals the parse without it. -/
theorem parseCleanedLines_drop (pre post : List Str) (bad : Str)
    (h : lineToProduto bad = none) :
    parseCleanedLines (pre ++ bad :: post) = parseCleanedLines (pre ++ post) := by
  simp [parseCleanedLines, List.filterMap_append, List.filterMap_cons, h]

/-! ### Concrete inputs for the testable scenarios -/

/-- The spec's end-to-end line, with no classification/barcode/code prefix. -/
def bareLineText : Str := "CAFE COM LEITE 200ML 506,000 3491,40".toList

/-- The same row in the format the source actually parses:
`[classif] [barcode-13] [code-4] [name] [custo] [qtd] [valor]`. -/
def prefixedText : Str :=
  "1 1234567890123 1234 CAFE COM LEITE 200ML 1,00 506,000 3491,40".toList

/-- The record the prefixed row produces. -/
def prefixedRec : ProdutoRec := ⟨"CAFE COM LEITE 200ML".toList, 506, 3491.4⟩

/-- A well-formed row whose quantity is exactly zero. -/
def zeroQtyText : Str := "1 1234567890123 1234 CAFE COM LEITE 1,00 0,000 10,00".toList

/-- The spec's line-wrap example: a name-only line followed by a numeric line. -/
def wrapText : Str := "PRODUTO X\n10,500 250,00".toList

/-- Two rows with the same name. -/
def twoSameText : Str :=
  ("1 1234567890123 1234 CAFE 1,00 2,000 30,00\n" ++
   "1 1234567890123 1234 CAFE 1,00 3,000 40,00").toList

/-- A document whose first row reaches the fallback branch (no leading
classification column, so the anchored regex fails) and carries the token
`nan` in the value position, together with one ordinary row. -/
def nanText : Str :=
  ("1234567890123 1234 CAFE X 1,00 2,000 nan\n" ++
   "1 1234567890123 1234 CAFE 1,00 2,000 30,00").toList

/-- Concrete run of the prefixed row: the regex branch matches, name
`CAFE COM LEITE 200ML`, quantity `506,000`, value `3491,40`. -/
theorem parse_prefixedText_eq : parse_lince_lines_to_list prefixedText = [prefixedRec] := by
  decide

/-! ### The claims -/

/-- C1, counterexample: the input text consisting of exactly the cleaned line
`"CAFE COM LEITE 200ML 506,000 3491,40"` does NOT yield the record
`{CAFE COM LEITE 200ML, 506.0, 3491.4}` — the parser requires the
classification/barcode/code prefix, the line has only 6 tokens, and the
result is in fact empty. -/
theorem c1_counterexample :
    (⟨"CAFE COM LEITE 200ML".toList, 506, (3491.4 : PyF)⟩ : ProdutoRec) ∉
      parse_lince_lines_to_list bareLineText := by decide

/-- C1, amended: the claimed end-to-end extraction does happen for a full
Lince row — the line `"1 1234567890123 1234 CAFE COM LEITE 200ML 1,00
506,000 3491,40"` parses to exactly the record `{name: "CAFE COM LEITE
200ML", quantity: 506.0, value: 3491.4}` — while the claim's bare cleaned
line (name and two numbers only) yields no record. -/
theorem c1_amended_parse :
    parse_lince_lines_to_list prefixedText = [prefixedRec] :=
  parse_prefixedText_eq

/-- C2, counterexample: `br_to_float("3.491.40")` is not `3491.40`; the
token has no comma, the EN attempt keeps both periods, `float` fails, and
the result is `None`. -/
theorem c2_counterexample :
    ¬ br_to_float (some "3.491.40".toList) = some (3491.4 : PyF) := by decide

/-- C2, amended: for every (whitespace-free) numeric token containing two or
more periods and no comma, `br_to_float` returns null — the last-period
decimal convention of the spec is not implemented. -/
theorem c2_amended_multiperiod (t : Str) (hws : (t.all fun c => !isPyWs c) = true)
    (hdots : 2 ≤ dotCount t) (hcomma : ',' ∉ t) : br_to_float (some t) = none :=
  br_to_float_two_dots hws hdots hcomma

/-- C2, witness: the amended claim evaluated at the two-period token `1.2.3`. -/
theorem c2_amended_multiperiod_witness : br_to_float (some "1.2.3".toList) = none :=
  c2_amended_multiperiod "1.2.3".toList (by decide) (by decide) (by decide)

/-- C3, counterexample: the line `"PRODUTO X"` followed by `"10,500 250,00"`
yields NO record (both lines are shorter than 20 characters and are dropped;
the parser entry point never invokes `glue_wrapped_lines`). -/
theorem c3_counterexample : parse_lince_lines_to_list wrapText = [] := by decide

/-- C3, amended: `glue_wrapped_lines` does concatenate a line whose trailing
numeric-token run is shorter than 2 with a following line at least half of
whose tokens are numeric — but `parse_lince_lines_to_list` never calls it,
and the example lines produce no record. -/
theorem c3_amended_glue (l1 l2 : Str) (rest : List Str)
    (h1 : tailNumLen l1 < 2) (h2 : (0.5 : Q) ≤ numTokenFrac l2) :
    glue_wrapped_lines (l1 :: l2 :: rest) =
      stripPy (l1 ++ ' ' :: l2) :: glue_wrapped_lines rest := by
  show (if glueCond l1 l2 then _ else _) = _
  rw [if_pos ⟨h1, h2⟩]

/-- C3, witness: the merge rule evaluated on the claim's two lines. -/
theorem c3_amended_glue_witness :
    glue_wrapped_lines ["PRODUTO X".toList, "10,500 250,00".toList] =
      ["PRODUTO X 10,500 250,00".toList] := by
  rw [c3_amended_glue "PRODUTO X".toList "10,500 250,00".toList [] (by decide) (by decide)]
  decide

/-- C4, counterexample: a well-formed row whose quantity parses to exactly
zero produces NO record — the source rejects `quantidade <= 0`, not only
negative values, so the whole document parses to the empty list. -/
theorem c4_counterexample : parse_lince_lines_to_list zeroQtyText = [] := by decide

/-- C4, amended: a line is rejected when either number fails to parse or
when the Python test `number <= 0` holds — so zero is rejected, not only
negative values; every record the parser returns fails both `<= 0` tests.
(Because every float comparison against NaN is `False` in Python, this does
NOT make the fields positive: a `nan` value passes the test and is
emitted.) -/
theorem c4_amended_never_le_zero (text : Str) (r : ProdutoRec)
    (h : r ∈ parse_lince_lines_to_list text) :
    ¬ r.quantidade ≤ (0 : PyF) ∧ ¬ r.valor ≤ (0 : PyF) :=
  parse_mem_not_le_zero h

/-- C4, witness: the amended claim evaluated on the record of the prefixed row. -/
theorem c4_amended_never_le_zero_witness :
    ¬ prefixedRec.quantidade ≤ (0 : PyF) ∧ ¬ prefixedRec.valor ≤ (0 : PyF) :=
  c4_amended_never_le_zero prefixedText prefixedRec
    (by rw [parse_prefixedText_eq]; exact List.mem_singleton.mpr rfl)

/-- C5: if exactly two lines of the document parse successfully with the same
cleaned name — quantities and values `(q1, v1)` and `(q2, v2)` — then the
parser output holds exactly one record of that name, with quantity `q1 + q2`
and value `v1 + v2`. -/
theorem c5_aggregation (text : Str) (n : Str) (q1 v1 q2 v2 : PyF)
    (h : (extractProdutos text).filter (fun p => decide (p.nome = n)) =
      [⟨n, q1, v1⟩, ⟨n, q2, v2⟩]) :
    (parse_lince_lines_to_list text).filter (fun r => decide (r.nome = n)) =
      [⟨n, q1 + q2, v1 + v2⟩] := by
  have hagg := filter_agg_two h
  have hperm : List.Perm
      ((parse_lince_lines_to_list text).filter (fun r => decide (r.nome = n)))
      ((aggProdutos (extractProdutos text)).filter (fun r => decide (r.nome = n))) :=
    (List.perm_insertionSort valGE (aggProdutos (extractProdutos text))).filter _
  rw [hagg] at hperm
  exact List.perm_singleton.mp hperm

/-- C5, witness: two rows named `CAFE` with quantities 2 and 3, values 30 and
40, aggregate to one record with quantity 5 and value 70. -/
theorem c5_aggregation_witness :
    (parse_lince_lines_to_list twoSameText).filter
      (fun r => decide (r.nome = "CAFE".toList)) =
      [⟨"CAFE".toList, (2 : PyF) + 3, (30 : PyF) + 40⟩] :=
  c5_aggregation twoSameText "CAFE".toList 2 30 3 40 (by decide)

/-- C6, counterexample: the sorted-output invariant `r[i].valor >=
r[i+1].valor` fails for `nanText` — its fallback-branch row carries the
value NaN, every comparison against NaN is `False`, so some adjacent pair
of the output violates the ordering (whichever side of the ordinary row
the NaN row lands on). -/
theorem c6_counterexample :
    ¬ List.Pairwise valGE (parse_lince_lines_to_list nanText) := by decide

/-- C6, amended: whenever no returned record carries the value NaN (in
particular for every input whose records' value tokens are ordinary
numbers), the output is sorted by value in non-increasing order (`valGE`
pairwise, hence for adjacent pairs), and the sort is stable: for every
value `v`, the records holding exactly `v` appear in the order of the
aggregation dictionary, i.e. first-insertion order of their names. -/
theorem c6_amended_sorted_stable (text : Str)
    (hnan : ∀ r ∈ parse_lince_lines_to_list text, r.valor ≠ PyF.nan) :
    List.Pairwise valGE (parse_lince_lines_to_list text) ∧
    ∀ v : PyF, (parse_lince_lines_to_list text).filter (fun r => decide (r.valor = v)) =
      (aggProdutos (extractProdutos text)).filter (fun r => decide (r.valor = v)) := by
  have hagg : ∀ r ∈ aggProdutos (extractProdutos text), r.valor ≠ PyF.nan := by
    intro r hr
    exact hnan r ((List.perm_insertionSort valGE _).mem_iff.mpr hr)
  constructor
  · exact pairwise_insertionSort hagg
  · intro v
    by_cases hv : v = PyF.nan
    · subst hv
      rw [List.filter_eq_nil_iff.mpr, List.filter_eq_nil_iff.mpr]
      · intro r hr
        simpa using hagg r hr
      · intro r hr
        simpa using hnan r hr
    · exact filter_insertionSort v hv (aggProdutos (extractProdutos text))

/-- C6, witness: the amended claim evaluated on the two-row document
`twoSameText` (one aggregated record, value `70`). -/
theorem c6_amended_sorted_witness :
    (∀ r ∈ parse_lince_lines_to_list twoSameText, r.valor ≠ PyF.nan) ∧
    List.Pairwise valGE (parse_lince_lines_to_list twoSameText) ∧
    (parse_lince_lines_to_list twoSameText).filter (fun r => decide (r.valor = (70 : PyF))) =
      (aggProdutos (extractProdutos twoSameText)).filter
        (fun r => decide (r.valor = (70 : PyF))) :=
  ⟨by decide, (c6_amended_sorted_stable twoSameText (by decide)).1,
   (c6_amended_sorted_stable twoSameText (by decide)).2 70⟩

/-- C7: for every input text, no two records in the parser output carry the
same name — the name-keyed aggregation produces pairwise distinct names and
sorting only permutes them. -/
theorem c7_names_nodup (text : Str) :
    ((parse_lince_lines_to_list text).map (fun r => r.nome)).Nodup := by
  have hperm : List.Perm
      ((parse_lince_lines_to_list text).map (fun r => r.nome))
      ((aggProdutos (extractProdutos text)).map (fun r => r.nome)) :=
    (List.perm_insertionSort valGE (aggProdutos (extractProdutos text))).map _
  exact hperm.nodup_iff.mpr (nodup_agg (extractProdutos text))

/-- C8: failures never escape — in the embedding every failure path of
`br_to_float` is the value `none` rather than an exception (`None` input,
empty and garbage strings included), and a line on which the per-line step
fails is simply dropped: the parse of the remaining lines is unchanged. -/
theorem c8_failure_isolated :
    (∀ (pre post : List Str) (bad : Str), lineToProduto bad = none →
      parseCleanedLines (pre ++ bad :: post) = parseCleanedLines (pre ++ post)) ∧
    br_to_float none = none ∧
    br_to_float (some "".toList) = none ∧
    br_to_float (some "abc".toList) = none :=
  ⟨fun pre post bad h => parseCleanedLines_drop pre post bad h, by decide, by decide, by decide⟩

/-- C8, witness: dropping an unparseable empty line between two lines. -/
theorem c8_failure_isolated_witness :
    parseCleanedLines ([prefixedText] ++ "".toList :: [bareLineText]) =
      parseCleanedLines ([prefixedText] ++ [bareLineText]) :=
  c8_failure_isolated.1 [prefixedText] [bareLineText] "".toList (by decide)

/-- C9, counterexample: on the comma-bearing token `1,2,3` the code does NOT
follow the spec's comma convention (whose rewrite `1.2.3` fails to parse,
which by the spec's own error model would give null): it falls back to
removing the commas and returns `123.0`. -/
theorem c9_counterexample :
    br_to_float (some "1,2,3".toList) = some (123 : PyF) ∧
    pyFloat (brRewrite "1,2,3".toList) = none :=
  ⟨by decide, by decide⟩

/-- C9, amended: the three round-trips hold; for a (whitespace-free) token
with a comma the periods-removed comma-to-point parse is used when it
succeeds, and on failure the token is re-parsed with all commas removed; a
nonempty token without a comma parses as a plain `float`. -/
theorem c9_amended_number_parse :
    br_to_float (some "1.234,56".toList) = some (1234.56 : PyF) ∧
    br_to_float (some "12,5".toList) = some (12.5 : PyF) ∧
    br_to_float (some "1785.79".toList) = some (1785.79 : PyF) ∧
    (∀ (t : Str) (q : PyF), (t.all fun c => !isPyWs c) = true → ',' ∈ t →
      pyFloat (brRewrite t) = some q → br_to_float (some t) = some q) ∧
    (∀ t : Str, (t.all fun c => !isPyWs c) = true → t ≠ [] → ',' ∉ t →
      br_to_float (some t) = pyFloat t) :=
  ⟨by decide, by decide, by decide,
   fun _ _ hws hc hq => br_to_float_comma_hit hws hc hq,
   fun _ hws hne hc => br_to_float_no_comma hws hne hc⟩

/-- C9, witness: the comma branch evaluated at the token `2,50`. -/
theorem c9_amended_number_witness : br_to_float (some "2,50".toList) = some (2.5 : PyF) :=
  c9_amended_number_parse.2.2.2.1 "2,50".toList (2.5 : PyF) (by decide) (by decide) (by decide)

/-- C10: every cleaned line shorter than 20 characters is skipped before any
content is examined: its per-line step yields no record, and inserting it
anywhere between other cleaned lines leaves the parse unchanged. -/
theorem c10_short_line_dropped (l : Str) (h : l.length < 20) :
    lineToProduto l = none ∧
    ∀ (pre post : List Str),
      parseCleanedLines (pre ++ l :: post) = parseCleanedLines (pre ++ post) := by
  have hnone : lineToProduto l = none := by
    unfold lineToProduto
    rw [if_pos (Or.inr h)]
  exact ⟨hnone, fun pre post => parseCleanedLines_drop pre post l hnone⟩

/-- C10, witness: the short but otherwise well-formed row `CAFE 1,0 2,0`
(12 characters) is dropped. -/
theorem c10_short_line_witness :
    lineToProduto "CAFE 1,0 2,0".toList = none ∧
    parseCleanedLines ([prefixedText] ++ "CAFE 1,0 2,0".toList :: [bareLineText]) =
      parseCleanedLines ([prefixedText] ++ [bareLineText]) :=
  ⟨(c10_short_line_dropped "CAFE 1,0 2,0".toList (by decide)).1,
   (c10_short_line_dropped "CAFE 1,0 2,0".toList (by decide)).2 [prefixedText] [bareLineText]⟩

end AB4
